import Mathlib

/-!
Shallow embedding of the target-function library in
`interactive-experiments/Part-II-target-functions.ipynb`: Bernstein
polynomials and their derivatives, tensor products, integrated sign
functions, and weighted combinations.  The numeric code is pure float
arithmetic; it is embedded as exact arithmetic over a linear ordered
field, instantiated at `ℝ` in the theorems.  The runtime `assert` on the
Bernstein index precondition is embedded as an `Option`-valued guard in
the `Chk` variants.
-/

namespace MFOTarget

/-- The three-valued signum as computed by `np.sign`: `-1, 0, 1` for
negative, zero, positive arguments. -/
def npSign {K : Type*} [LinearOrderedField K] (x : K) : K :=
  if x < 0 then -1 else if x = 0 then 0 else 1

/-- The binomial coefficient as computed by `scipy.special.binom` at
non-negative integer arguments. -/
def binom (n k : ℕ) : ℕ :=
  Nat.choose n k

/-- Body of `bernstein(x, k, n)` from the notebook:
`binom(n, k)*(x**k)*((1-x)**(n-k))`. -/
def bernstein {K : Type*} [LinearOrderedField K] (x : K) (k n : ℕ) : K :=
  (binom n k : K) * x ^ k * (1 - x) ^ (n - k)

/-- Body of `Dbernstein(x, k, n)` from the notebook: `b1` is `0*x` when
`n==0 or k==0` and `bernstein(x, k-1, n-1)` otherwise, `b2` is `0*x` when
`n==0 or k==n` and `bernstein(x, k, n-1)` otherwise, and the result is
`n*(b1 - b2)`. -/
def Dbernstein {K : Type*} [LinearOrderedField K] (x : K) (k n : ℕ) : K :=
  (n : K) * ((if n = 0 ∨ k = 0 then 0 else bernstein x (k - 1) (n - 1)) -
    (if n = 0 ∨ k = n then 0 else bernstein x k (n - 1)))

/-- Body of `bernstein2d(xgrid, ygrid, k, n)`:
`bernstein(xgrid, k[0], n[0])*bernstein(ygrid, k[1], n[1])`, evaluated
here at one grid point `(x, y)`. -/
def bernstein2d {K : Type*} [LinearOrderedField K] (x y : K) (k n : ℕ × ℕ) : K :=
  bernstein x k.1 n.1 * bernstein y k.2 n.2

/-- Body of `Dbernstein2d(xgrid, ygrid, k, n)`: the pair
`(Dx, Dy) = (Dbernstein(x,k0,n0)*bernstein(y,k1,n1),
bernstein(x,k0,n0)*Dbernstein(y,k1,n1))`. -/
def Dbernstein2d {K : Type*} [LinearOrderedField K] (x y : K) (k n : ℕ × ℕ) : K × K :=
  (Dbernstein x k.1 n.1 * bernstein y k.2 n.2,
   bernstein x k.1 n.1 * Dbernstein y k.2 n.2)

/-- Body of `signpoly(x, n)` from the notebook:
`1/np.math.factorial(n)*np.power(x, n)*np.sign(x)`. -/
def signpoly {K : Type*} [LinearOrderedField K] (x : K) (n : ℕ) : K :=
  1 / (Nat.factorial n : K) * x ^ n * npSign x

/-- The weighted combination `zs = w1 * zs1 + w2 * zs2` from the final
notebook cell. -/
def zs {K : Type*} [LinearOrderedField K] (w1 w2 zs1 zs2 : K) : K :=
  w1 * zs1 + w2 * zs2

/-- `bernstein` with its `assert (0<=k and k<=n)` precondition made
explicit: indices are arbitrary integers and an assertion failure is
`none`. -/
def bernsteinChk {K : Type*} [LinearOrderedField K] (x : K) (k n : ℤ) : Option K :=
  if 0 ≤ k ∧ k ≤ n then some (bernstein x k.toNat n.toNat) else none

/-- `Dbernstein` with its `assert` made explicit; the recursive calls go
through `bernsteinChk`, whose own guard is re-checked as in the source. -/
def DbernsteinChk {K : Type*} [LinearOrderedField K] (x : K) (k n : ℤ) : Option K :=
  if 0 ≤ k ∧ k ≤ n then
    (if n = 0 ∨ k = 0 then some 0 else bernsteinChk x (k - 1) (n - 1)).bind fun b1 =>
      (if n = 0 ∨ k = n then some 0 else bernsteinChk x k (n - 1)).bind fun b2 =>
        some ((n : K) * (b1 - b2))
  else none

/-- `bernstein2d` with its vectorized `assert` (`np.all(0<=k) and
np.all(k<=n)`, i.e. both axes checked) made explicit. -/
def bernstein2dChk {K : Type*} [LinearOrderedField K] (x y : K) (k n : ℤ × ℤ) :
    Option K :=
  if (0 ≤ k.1 ∧ 0 ≤ k.2) ∧ (k.1 ≤ n.1 ∧ k.2 ≤ n.2) then
    (bernsteinChk x k.1 n.1).bind fun a =>
      (bernsteinChk y k.2 n.2).bind fun b => some (a * b)
  else none

/-- `Dbernstein2d` with its vectorized `assert` made explicit. -/
def Dbernstein2dChk {K : Type*} [LinearOrderedField K] (x y : K) (k n : ℤ × ℤ) :
    Option (K × K) :=
  if (0 ≤ k.1 ∧ 0 ≤ k.2) ∧ (k.1 ≤ n.1 ∧ k.2 ≤ n.2) then
    (DbernsteinChk x k.1 n.1).bind fun dx =>
      (bernsteinChk y k.2 n.2).bind fun b =>
        (bernsteinChk x k.1 n.1).bind fun a =>
          (DbernsteinChk y k.2 n.2).bind fun dy => some (dx * b, a * dy)
  else none

/-- Partition of unity for the Bernstein basis, via the binomial theorem. -/
theorem sum_bernstein {K : Type*} [LinearOrderedField K] (x : K) (n : ℕ) :
    ∑ k ∈ Finset.range (n + 1), bernstein x k n = 1 := by
  have h : ∑ k ∈ Finset.range (n + 1), bernstein x k n
      = ∑ k ∈ Finset.range (n + 1), x ^ k * (1 - x) ^ (n - k) * (Nat.choose n k : K) := by
    refine Finset.sum_congr rfl ?hterm
    intro k _
    simp only [bernstein, binom]
    ring
  have hone : x + (1 - x) = 1 := by ring
  rw [h, ← add_pow, hone, one_pow]

/-- C1: for every real `x` and naturals `k ≤ n`, `bernstein(x, k, n)`
returns `C(n,k) · x^k · (1-x)^(n-k)`, and in particular
`bernstein(0.5, 2, 3) = 0.375`. -/
theorem bernstein_formula_eval :
    (∀ (x : ℝ) (k n : ℕ), k ≤ n →
        bernstein x k n = (Nat.choose n k : ℝ) * x ^ k * (1 - x) ^ (n - k)) ∧
    bernstein (0.5 : ℝ) 2 3 = 0.375 := by
  constructor
  · intro x k n _
    rfl
  · norm_num [bernstein, binom]

/-- Witness for C1 at `x = 0.5`, `k = 2`, `n = 3`. -/
theorem bernstein_formula_eval_witness :
    bernstein (0.5 : ℝ) 2 3 = (Nat.choose 3 2 : ℝ) * (0.5) ^ 2 * (1 - 0.5) ^ (3 - 2) :=
  bernstein_formula_eval.1 0.5 2 3 (by decide)

/-- C5: for every `n ≤ 10` and every real `x`, the Bernstein basis of
degree `n` sums to `1` over `k = 0, …, n`. -/
theorem bernstein_partition_of_unity (n : ℕ) (h : n ≤ 10) (x : ℝ) :
    ∑ k ∈ Finset.range (n + 1), bernstein x k n = 1 :=
  sum_bernstein x n

/-- Witness for C5 at `n = 3`, `x = 0.5`. -/
theorem bernstein_partition_of_unity_witness :
    (3 ≤ 10) ∧ ∑ k ∈ Finset.range (3 + 1), bernstein (0.5 : ℝ) k 3 = 1 :=
  ⟨by decide, bernstein_partition_of_unity 3 (by decide) 0.5⟩

/-- C3: `signpoly(x, n)` returns `(1/n!) · x^n · sign(x)` with the
three-valued signum; hence it vanishes at `x = 0` for `n ≥ 1`, equals the
raw signum for `n = 0`, and takes the values `0.5` and `-0.5` at
`x = 1, -1` for `n = 2`. -/
theorem signpoly_values (x : ℝ) (n : ℕ) :
    signpoly x n = 1 / (Nat.factorial n : ℝ) * x ^ n * npSign x ∧
    (1 ≤ n → signpoly (0 : ℝ) n = 0) ∧
    (x < 0 → signpoly x 0 = -1) ∧ (x = 0 → signpoly x 0 = 0) ∧
    (0 < x → signpoly x 0 = 1) ∧
    signpoly (1 : ℝ) 2 = 0.5 ∧ signpoly (-1 : ℝ) 2 = -0.5 := by
  refine ⟨rfl, ?h0, ?hneg, ?hzero, ?hpos, ?hone, ?hmone⟩
  · intro _
    simp [signpoly, npSign]
  · intro hx
    simp [signpoly, npSign, if_pos hx]
  · intro hx
    simp [signpoly, npSign, hx]
  · intro hx
    have hx0 : ¬ x < 0 := not_lt.mpr hx.le
    have hxne : ¬ x = 0 := ne_of_gt hx
    simp [signpoly, npSign, hx0, hxne]
  · norm_num [signpoly, npSign]
  · norm_num [signpoly, npSign]

/-- Witness for C3 at `n = 1, x = 0`, at `n = 0, x = -1`, and at
`n = 0, x = 1`. -/
theorem signpoly_values_witness :
    signpoly (0 : ℝ) 1 = 0 ∧ signpoly (-1 : ℝ) 0 = -1 ∧ signpoly (1 : ℝ) 0 = 1 :=
  ⟨(signpoly_values 0 1).2.1 (by decide),
   (signpoly_values (-1) 0).2.2.1 neg_one_lt_zero,
   (signpoly_values 1 0).2.2.2.2.1 one_pos⟩

/-- C7: the integrated-sign family satisfies the reflection law
`signpoly(-x, n) = -signpoly(x, n) · (-1)^n`. -/
theorem signpoly_reflection (x : ℝ) (n : ℕ) :
    signpoly (-x) n = -signpoly x n * (-1) ^ n := by
  have hsgn : npSign (-x) = -npSign x := by
    rcases lt_trichotomy x 0 with h | h | h
    · have h1 : ¬ -x < 0 := by linarith
      have h2 : ¬ -x = 0 := by intro hc; apply absurd h; simp [neg_eq_zero.mp hc]
      simp [npSign, h1, h2, if_pos h]
    · simp [npSign, h]
    · have h1 : -x < 0 := by linarith
      have h2 : ¬ x < 0 := not_lt.mpr h.le
      have h3 : ¬ x = 0 := ne_of_gt h
      simp [npSign, h1, h2, h3]
  have hp : (-x) ^ n = (-1) ^ n * x ^ n := neg_pow x n
  simp only [signpoly, hsgn, hp]
  ring

/-- C8: the weighted combination built in the final notebook cell is the
plain affine combination `w1 · B + w2 · H` of the 2D Bernstein value and
the 2D integrated-sign value, with no normalization applied. -/
theorem weighted_combination_formula (w1 w2 x y c1 c2 : ℝ) (k n : ℕ × ℕ)
    (m1 m2 : ℕ) :
    zs w1 w2 (bernstein2d x y k n) (signpoly (x - c1) m1 * signpoly (y - c2) m2) =
      w1 * bernstein2d x y k n +
        w2 * (signpoly (x - c1) m1 * signpoly (y - c2) m2) :=
  rfl

/-- When the index precondition holds, `bernsteinChk` succeeds. -/
theorem bernsteinChk_eq_some {K : Type*} [LinearOrderedField K] (x : K) {k n : ℤ}
    (h : 0 ≤ k ∧ k ≤ n) :
    bernsteinChk x k n = some (bernstein x k.toNat n.toNat) := by
  simp [bernsteinChk, h]

/-- When the index precondition holds, `DbernsteinChk` succeeds. -/
theorem DbernsteinChk_isSome {K : Type*} [LinearOrderedField K] (x : K) {k n : ℤ}
    (h : 0 ≤ k ∧ k ≤ n) :
    (DbernsteinChk x k n).isSome := by
  rw [DbernsteinChk, if_pos h]
  by_cases h1 : n = 0 ∨ k = 0
  · by_cases h2 : n = 0 ∨ k = n
    · simp [h1, h2]
    · rw [if_pos h1, if_neg h2, bernsteinChk_eq_some x ⟨h.1, by omega⟩]
      simp
  · by_cases h2 : n = 0 ∨ k = n
    · rw [if_neg h1, if_pos h2, bernsteinChk_eq_some x ⟨by omega, by omega⟩]
      simp
    · rw [if_neg h1, if_neg h2, bernsteinChk_eq_some x ⟨by omega, by omega⟩,
        bernsteinChk_eq_some x ⟨h.1, by omega⟩]
      simp

/-- C4: each of the four checked Bernstein-family evaluators fails
(returns `none`, the model of the `assert` firing) exactly when some
index `k` is outside `[0, n]`, per axis in the 2D variants; otherwise it
succeeds, so the precondition is the only error these operations raise. -/
theorem bernstein_family_precondition_iff :
    (∀ (x : ℝ) (k n : ℤ), bernsteinChk x k n = none ↔ (k < 0 ∨ n < k)) ∧
    (∀ (x : ℝ) (k n : ℤ), DbernsteinChk x k n = none ↔ (k < 0 ∨ n < k)) ∧
    (∀ (x y : ℝ) (k n : ℤ × ℤ), bernstein2dChk x y k n = none ↔
      ((k.1 < 0 ∨ n.1 < k.1) ∨ (k.2 < 0 ∨ n.2 < k.2))) ∧
    (∀ (x y : ℝ) (k n : ℤ × ℤ), Dbernstein2dChk x y k n = none ↔
      ((k.1 < 0 ∨ n.1 < k.1) ∨ (k.2 < 0 ∨ n.2 < k.2))) := by
  have hb : ∀ (x : ℝ) (k n : ℤ), bernsteinChk x k n = none ↔ (k < 0 ∨ n < k) := by
    intro x k n
    by_cases h : 0 ≤ k ∧ k ≤ n
    · rw [bernsteinChk_eq_some x h]
      simp
      omega
    · rw [bernsteinChk, if_neg h]
      simp
      omega
  have hd : ∀ (x : ℝ) (k n : ℤ), DbernsteinChk x k n = none ↔ (k < 0 ∨ n < k) := by
    intro x k n
    by_cases h : 0 ≤ k ∧ k ≤ n
    · have := DbernsteinChk_isSome x h
      constructor
      · intro hc
        rw [hc] at this
        simp at this
      · intro hc
        omega
    · rw [DbernsteinChk, if_neg h]
      simp
      omega
  refine ⟨hb, hd, ?h2d, ?hd2d⟩
  · intro x y k n
    by_cases h : (0 ≤ k.1 ∧ 0 ≤ k.2) ∧ (k.1 ≤ n.1 ∧ k.2 ≤ n.2)
    · rw [bernstein2dChk, if_pos h, bernsteinChk_eq_some x ⟨h.1.1, h.2.1⟩,
        bernsteinChk_eq_some y ⟨h.1.2, h.2.2⟩]
      simp
      omega
    · rw [bernstein2dChk, if_neg h]
      simp
      omega
  · intro x y k n
    by_cases h : (0 ≤ k.1 ∧ 0 ≤ k.2) ∧ (k.1 ≤ n.1 ∧ k.2 ≤ n.2)
    · rw [Dbernstein2dChk, if_pos h]
      obtain ⟨dx, hdx⟩ := Option.isSome_iff_exists.mp (DbernsteinChk_isSome x ⟨h.1.1, h.2.1⟩)
      obtain ⟨dy, hdy⟩ := Option.isSome_iff_exists.mp (DbernsteinChk_isSome y ⟨h.1.2, h.2.2⟩)
      rw [hdx, hdy, bernsteinChk_eq_some x ⟨h.1.1, h.2.1⟩,
        bernsteinChk_eq_some y ⟨h.1.2, h.2.2⟩]
      simp
      omega
    · rw [Dbernstein2dChk, if_neg h]
      simp
      omega

/-- The index-shift identity `n · C(n-1, k-1) = C(n, k) · k` for `0 < k`,
`0 < n`. -/
theorem choose_shift_left (k n : ℕ) (hk : 0 < k) (hn : 0 < n) :
    n * Nat.choose (n - 1) (k - 1) = Nat.choose n k * k := by
  have h := Nat.succ_mul_choose_eq (n - 1) (k - 1)
  have hn1 : n - 1 + 1 = n := by omega
  have hk1 : k - 1 + 1 = k := by omega
  simp only [Nat.succ_eq_add_one] at h
  rw [hn1, hk1] at h
  exact h

/-- The complementary identity `C(n-1, k) · n = C(n, k) · (n - k)`. -/
theorem choose_shift_right (k n : ℕ) (hn : 0 < n) :
    Nat.choose (n - 1) k * n = Nat.choose n k * (n - k) := by
  have h := Nat.choose_mul_succ_eq (n - 1) k
  have hn1 : n - 1 + 1 = n := by omega
  rw [hn1] at h
  exact h

/-- The function `t ↦ bernstein t k n` has exact derivative
`Dbernstein x k n` at every point `x`, for `k ≤ n`. -/
theorem hasDerivAt_bernstein (k n : ℕ) (hkn : k ≤ n) (x : ℝ) :
    HasDerivAt (fun t : ℝ => bernstein t k n) (Dbernstein x k n) x := by
  have hs : HasDerivAt (fun t : ℝ => 1 - t) (-1) x := (hasDerivAt_id x).const_sub 1
  have h2 : HasDerivAt (fun t : ℝ => (1 - t) ^ (n - k))
      (((n - k : ℕ) : ℝ) * (1 - x) ^ (n - k - 1) * -1) x :=
    (hasDerivAt_pow (n - k) (1 - x)).comp x hs
  have h3 : HasDerivAt (fun t : ℝ => t ^ k * (1 - t) ^ (n - k))
      ((k : ℝ) * x ^ (k - 1) * (1 - x) ^ (n - k) +
        x ^ k * (((n - k : ℕ) : ℝ) * (1 - x) ^ (n - k - 1) * -1)) x :=
    (hasDerivAt_pow k x).mul h2
  have h4 := h3.const_mul ((binom n k : ℝ))
  have heq : (fun t : ℝ => bernstein t k n)
      = fun t : ℝ => (binom n k : ℝ) * (t ^ k * (1 - t) ^ (n - k)) := by
    funext t
    rw [bernstein, mul_assoc]
  rw [heq]
  have hval : (binom n k : ℝ) *
      ((k : ℝ) * x ^ (k - 1) * (1 - x) ^ (n - k) +
        x ^ k * (((n - k : ℕ) : ℝ) * (1 - x) ^ (n - k - 1) * -1)) = Dbernstein x k n := by
    rcases Nat.eq_zero_or_pos n with hn | hn
    · have hk0 : k = 0 := by omega
      subst hn
      subst hk0
      norm_num [Dbernstein, binom]
    · rcases Nat.eq_zero_or_pos k with hk0 | hkpos
      · subst hk0
        have hcond : ¬ (n = 0 ∨ 0 = n) := by omega
        have hne : ¬ n = 0 := by omega
        have hne2 : ¬ 0 = n := by omega
        simp [Dbernstein, bernstein, binom, hcond, hne, hne2]
      · rcases eq_or_lt_of_le hkn with hkeq | hklt
        · subst hkeq
          have hc1 : ¬ (k = 0 ∨ k = 0) := by omega
          have hk0 : ¬ k = 0 := by omega
          simp [Dbernstein, bernstein, binom, hc1, hk0]
        · have hc1 : ¬ (n = 0 ∨ k = 0) := by omega
          have hc2 : ¬ (n = 0 ∨ k = n) := by omega
          have e1 : n - 1 - (k - 1) = n - k := by omega
          have e2 : n - 1 - k = n - k - 1 := by omega
          have hA : ((n : ℝ)) * (Nat.choose (n - 1) (k - 1) : ℝ)
              = (Nat.choose n k : ℝ) * (k : ℝ) := by
            exact_mod_cast congrArg (fun m : ℕ => (m : ℝ))
              (choose_shift_left k n hkpos hn)
          have hB : ((Nat.choose (n - 1) k : ℝ)) * (n : ℝ)
              = (Nat.choose n k : ℝ) * ((n - k : ℕ) : ℝ) := by
            exact_mod_cast congrArg (fun m : ℕ => (m : ℝ))
              (choose_shift_right k n hn)
          rw [Dbernstein, if_neg hc1, if_neg hc2, bernstein, bernstein, binom, binom,
            binom, e1, e2]
          linear_combination (x ^ k * (1 - x) ^ (n - k - 1)) * hB -
            (x ^ (k - 1) * (1 - x) ^ (n - k)) * hA
  rw [← hval]
  exact h4

/-- C2: `Dbernstein(x, k, n)` returns
`n · (B(k-1,n-1)(x) − B(k,n-1)(x))` with the zero-function boundary cases
for `k=0`, `k=n`, `n=0`, and this value is the exact derivative of
`bernstein(x, k, n)` with respect to `x`. -/
theorem Dbernstein_is_exact_derivative (k n : ℕ) (hkn : k ≤ n) (x : ℝ) :
    Dbernstein x k n =
      (n : ℝ) * ((if n = 0 ∨ k = 0 then 0 else bernstein x (k - 1) (n - 1)) -
        (if n = 0 ∨ k = n then 0 else bernstein x k (n - 1))) ∧
    HasDerivAt (fun t : ℝ => bernstein t k n) (Dbernstein x k n) x :=
  ⟨rfl, hasDerivAt_bernstein k n hkn x⟩

/-- Witness for C2 at `k = 2`, `n = 3`, `x = 0.5`. -/
theorem Dbernstein_is_exact_derivative_witness :
    HasDerivAt (fun t : ℝ => bernstein t 2 3) (Dbernstein 0.5 2 3) 0.5 :=
  (Dbernstein_is_exact_derivative 2 3 (by decide) 0.5).2

/-- C6: `bernstein2d` is the tensor product of the per-axis Bernstein
values, and `Dbernstein2d` is the corresponding pair of product-rule
partial derivatives; each component is the exact partial derivative of
the tensor product in its axis. -/
theorem bernstein2d_tensor_and_partials (x y : ℝ) (kx ky nx ny : ℕ)
    (hx : kx ≤ nx) (hy : ky ≤ ny) :
    bernstein2d x y (kx, ky) (nx, ny) = bernstein x kx nx * bernstein y ky ny ∧
    Dbernstein2d x y (kx, ky) (nx, ny) =
      (Dbernstein x kx nx * bernstein y ky ny,
       bernstein x kx nx * Dbernstein y ky ny) ∧
    HasDerivAt (fun t : ℝ => bernstein2d t y (kx, ky) (nx, ny))
      (Dbernstein2d x y (kx, ky) (nx, ny)).1 x ∧
    HasDerivAt (fun t : ℝ => bernstein2d x t (kx, ky) (nx, ny))
      (Dbernstein2d x y (kx, ky) (nx, ny)).2 y := by
  refine ⟨rfl, rfl, ?hpx, ?hpy⟩
  · exact (hasDerivAt_bernstein kx nx hx x).mul_const (bernstein y ky ny)
  · exact (hasDerivAt_bernstein ky ny hy y).const_mul (bernstein x kx nx)

/-- Witness for C6 at `x = y = 0.5`, `k = (2, 3)`, `n = (3, 4)`. -/
theorem bernstein2d_tensor_and_partials_witness :
    bernstein2d (0.5 : ℝ) 0.5 (2, 3) (3, 4) =
      bernstein (0.5 : ℝ) 2 3 * bernstein (0.5 : ℝ) 3 4 :=
  (bernstein2d_tensor_and_partials 0.5 0.5 2 3 3 4 (by decide) (by decide)).1

/-- Each Bernstein basis value is non-negative on the unit interval. -/
theorem bernstein_nonneg (x : ℝ) (h0 : 0 ≤ x) (h1 : x ≤ 1) (k n : ℕ) :
    0 ≤ bernstein x k n := by
  have hx1 : (0 : ℝ) ≤ 1 - x := by linarith
  exact mul_nonneg (mul_nonneg (Nat.cast_nonneg _) (pow_nonneg h0 _))
    (pow_nonneg hx1 _)

/-- C10: on the unit interval, every Bernstein basis value with
`k ≤ n` lies in `[0, 1]`. -/
theorem bernstein_range_unit_interval (x : ℝ) (k n : ℕ) (h0 : 0 ≤ x)
    (h1 : x ≤ 1) (hkn : k ≤ n) :
    0 ≤ bernstein x k n ∧ bernstein x k n ≤ 1 := by
  refine ⟨bernstein_nonneg x h0 h1 k n, ?hub⟩
  have hsum := sum_bernstein x n
  have hle : bernstein x k n ≤ ∑ j ∈ Finset.range (n + 1), bernstein x j n := by
    refine Finset.single_le_sum (f := fun j => bernstein x j n) ?hnn ?hmem
    · intro j _
      exact bernstein_nonneg x h0 h1 j n
    · exact Finset.mem_range.mpr (by omega)
  calc bernstein x k n ≤ ∑ j ∈ Finset.range (n + 1), bernstein x j n := hle
    _ = 1 := hsum

/-- Witness for C10 at `x = 1/2`, `k = 2`, `n = 3`. -/
theorem bernstein_range_unit_interval_witness :
    0 ≤ bernstein (1 / 2 : ℝ) 2 3 ∧ bernstein (1 / 2 : ℝ) 2 3 ≤ 1 :=
  bernstein_range_unit_interval (1 / 2) 2 3 one_half_pos.le one_half_lt_one.le
    (by decide)

/-- The three-valued signum has absolute value at most `1`. -/
theorem abs_npSign_le_one (x : ℝ) : |npSign x| ≤ 1 := by
  rw [npSign]
  split_ifs with h1 h2
  · simp
  · simp
  · simp

/-- One-variable bound: `|signpoly(u, m)| ≤ 1/m!` whenever `|u| ≤ 1`. -/
theorem abs_signpoly_le (u : ℝ) (m : ℕ) (hu : |u| ≤ 1) :
    |signpoly u m| ≤ 1 / (Nat.factorial m : ℝ) := by
  have hf : (0 : ℝ) < (Nat.factorial m : ℝ) := by
    exact_mod_cast Nat.factorial_pos m
  have hup : |u ^ m| ≤ 1 := by
    rw [abs_pow]
    exact pow_le_one₀ (abs_nonneg u) hu
  calc |signpoly u m|
      = |1 / (Nat.factorial m : ℝ)| * |u ^ m| * |npSign u| := by
        rw [signpoly, abs_mul, abs_mul]
    _ ≤ |1 / (Nat.factorial m : ℝ)| * 1 * 1 := by
        gcongr
        exact abs_npSign_le_one u
    _ = 1 / (Nat.factorial m : ℝ) := by
        rw [mul_one, mul_one, abs_of_pos (by positivity)]

/-- C9 (amended): when both shifted arguments lie in `[-1, 1]` — as
happens for the unshifted family `c1 = c2 = 0` on the unit square, but
not for all shifts in `[-1, 1]` — the 2D integrated-sign product is
bounded in absolute value by `1/(n1! · n2!)`. -/
theorem signpoly_product_bound (t s : ℝ) (n1 n2 : ℕ) (h1 : n1 ≤ 5)
    (h2 : n2 ≤ 5) (ht : |t| ≤ 1) (hs : |s| ≤ 1) :
    |signpoly t n1 * signpoly s n2| ≤
      1 / ((Nat.factorial n1 : ℝ) * (Nat.factorial n2 : ℝ)) := by
  rw [abs_mul]
  have ha := abs_signpoly_le t n1 ht
  have hb := abs_signpoly_le s n2 hs
  calc |signpoly t n1| * |signpoly s n2|
      ≤ 1 / (Nat.factorial n1 : ℝ) * (1 / (Nat.factorial n2 : ℝ)) :=
        mul_le_mul ha hb (abs_nonneg _) (by positivity)
    _ = 1 / ((Nat.factorial n1 : ℝ) * (Nat.factorial n2 : ℝ)) := by
        rw [div_mul_div_comm, one_mul]

/-- Witness for the amended C9 at `t = s = 0`, `n1 = n2 = 1`. -/
theorem signpoly_product_bound_witness :
    |signpoly (0 : ℝ) 1 * signpoly (0 : ℝ) 1| ≤
      1 / ((Nat.factorial 1 : ℝ) * (Nat.factorial 1 : ℝ)) :=
  signpoly_product_bound 0 0 1 1 (by decide) (by decide) (by simp) (by simp)

/-- C9 as stated is false: at `x = y = 1`, `c1 = c2 = -1` (both within
the slider ranges `[0,1]` and `[-1,1]`) and orders `n1 = 2`, `n2 = 0`,
the plotted 2D integrated-sign value is `4.5`, which exceeds the fixed
color-scale bound `1/(2!·0!) = 0.5`. -/
theorem signpoly_colorscale_counterexample :
    (0 : ℝ) ≤ 1 ∧ (1 : ℝ) ≤ 1 ∧ (-1 : ℝ) ≤ -1 ∧ (-1 : ℝ) ≤ 1 ∧
    (2 : ℕ) ≤ 5 ∧ (0 : ℕ) ≤ 5 ∧
    ¬ (|signpoly (2 * ((1 : ℝ) - (-1)) - 1) 2 *
          signpoly (2 * ((1 : ℝ) - (-1)) - 1) 0| ≤
        1 / ((Nat.factorial 2 : ℝ) * (Nat.factorial 0 : ℝ))) := by
  refine ⟨zero_le_one, le_refl 1, le_refl (-1), by norm_num, by decide,
    by decide, ?hc⟩
  have harg : 2 * ((1 : ℝ) - (-1)) - 1 = 3 := by norm_num
  have hs3 : npSign (3 : ℝ) = 1 := by
    rw [npSign]
    norm_num
  rw [harg, signpoly, signpoly, hs3]
  have hv : 1 / (Nat.factorial 2 : ℝ) * 3 ^ 2 * 1 *
      (1 / (Nat.factorial 0 : ℝ) * 3 ^ 0 * 1) = 9 / 2 := by
    norm_num [Nat.factorial]
  rw [hv, abs_of_pos (by norm_num : (0 : ℝ) < 9 / 2)]
  norm_num [Nat.factorial]

end MFOTarget
